import Mathlib

/-!
Verification of `DataScraping/character_segment.py` (class `CharacterSegmenter`).

Shallow embedding conventions:
* Strings and file paths are `List Char` (named `Str`); `"lit".data` injects literals.
* numpy boolean masks are `List Bool` (flattened pixel grids); `mask.sum()` is
  `List.count true`; `np.logical_and`/`np.logical_or` are `List.zipWith`.
* Python floats are modelled by `ℚ`.
* The Python dict `self.metadata` (and the `results` dict of `segment_batch`)
  is an association list with Python's dict-assignment semantics: assignment
  replaces the value at an existing key in place, otherwise appends.
* The SAM3 oracle together with image decoding is abstracted by an
  `Option ℕ` argument: `some n` means processing the image succeeds and yields
  `n` (mask, bbox, score) results; `none` means an exception is raised
  somewhere inside the `try` block of `segment_image` (oracle error, decode
  error, I/O error).
* Exceptions from Python integer/float division are modelled by `Option`:
  `pyDiv` returns `none` exactly when the divisor is zero (ZeroDivisionError).
-/

set_option maxRecDepth 40000

abbrev Str := List Char

/-- Split a character list on a separator character (used to model taking the
last path component, as `pathlib.PurePath.name` does). -/
def splitOnChar (sep : Char) (s : Str) : List Str :=
  s.foldr
    (fun c acc =>
      match acc with
      | [] => [[c]]
      | a :: as => if c = sep then [] :: a :: as else (c :: a) :: as)
    [[]]

/-- Last path component, modelling `pathlib.Path(...).name`. -/
def fileName (p : Str) : Str := (splitOnChar '/' p).getLastD []

/-- Index of the last occurrence of a character, modelling `str.rfind` (as an
`Option` instead of Python's `-1` convention). -/
def lastIdxOf (c : Char) : Str → Option Nat
  | [] => none
  | x :: xs =>
    match lastIdxOf c xs with
    | some i => some (i + 1)
    | none => if x = c then some 0 else none

/-- Extension of the final path component, modelling `pathlib.Path(...).suffix`:
`name[i:]` for `i = name.rfind('.')` when `0 < i < len(name) - 1`, else `''`. -/
def pathSuffix (p : Str) : Str :=
  let n := fileName p
  match lastIdxOf '.' n with
  | some i => if 0 < i ∧ i < n.length - 1 then n.drop i else []
  | none => []

/-- Stem of the final path component, modelling `pathlib.Path(...).stem`:
the name with its suffix removed. -/
def stem (p : Str) : Str :=
  let n := fileName p
  match lastIdxOf '.' n with
  | some i => if 0 < i ∧ i < n.length - 1 then n.take i else n
  | none => n

/-- Lowercasing, modelling `str.lower()` on ASCII path suffixes. -/
def toLowerStr (s : Str) : Str := s.map Char.toLower

/-- Lookup in a Python dict modelled as an association list. -/
def dictLookup {β : Type} (k : Str) : List (Str × β) → Option β
  | [] => none
  | e :: es => if e.1 == k then some e.2 else dictLookup k es

/-- Python dict assignment `d[k] = v`: replace the value at an existing key in
place, otherwise append the new binding (insertion order is preserved). -/
def dictInsert {β : Type} (k : Str) (v : β) : List (Str × β) → List (Str × β)
  | [] => [(k, v)]
  | e :: es => if e.1 == k then (k, v) :: es else e :: dictInsert k v es

/-- One entry of `self.metadata` as written by `segment_image`
(character_segment.py lines 337-342). -/
structure CropRecord where
  source_image : Str
  character_count : Nat
  character_crops : List Str
  method : Str
deriving DecidableEq

/-- Result of one `segment_image` call: the returned crop-path list, the
metadata dict after the call, and whether the image was actually (re)processed
(`false` exactly on the cached early return of lines 289-294, which never
touches the model/oracle). -/
structure SegResult where
  crops : List Str
  meta : List (Str × CropRecord)
  processed : Bool
deriving DecidableEq

/-- Decimal digits of the crop index, zero-padded to width two, modelling the
Python format specifier `f"{idx:02d}"` for a non-negative index. -/
def pad2 (n : Nat) : Str :=
  if n < 10 then '0' :: Nat.toDigits 10 n else Nat.toDigits 10 n

/-- Output path of one saved crop, modelling
`self.output_dir / f"{image_id}_char_{idx:02d}.png"` (line 331) with the
default `output_dir="character_crops"`. -/
def cropPath (image_id : Str) (idx : Nat) : Str :=
  "character_crops/".data ++ image_id ++ "_char_".data ++ pad2 idx ++ ".png".data

/-- The body of `segment_image` past the cached-record check (lines 296-352):
loading, segmenting, cropping, saving crops and updating the metadata dict.
On `some n` the oracle yields `n` results, the crops are written and the
ledger entry is stored; on `none` an exception is raised inside the `try`
block, which is caught at lines 348-352 and yields `[]` with the metadata
unchanged. -/
def processImage (meta : List (Str × CropRecord)) (image_path image_id : Str)
    (oracle : Option Nat) : SegResult :=
  match oracle with
  | none => ⟨[], meta, true⟩
  | some n =>
    let character_images := (List.range n).map (fun idx => cropPath image_id idx)
    ⟨character_images,
     dictInsert image_id
       ⟨image_path, character_images.length, character_images, "sam3_auto".data⟩ meta,
     true⟩

/-- `CharacterSegmenter.segment_image` (lines 274-352). `disk` is the set of
files currently existing on disk, used by the
`all(Path(crop).exists() for crop in existing_crops)` check of line 293. -/
def segment_image (force : Bool) (meta : List (Str × CropRecord)) (disk : List Str)
    (image_path : Str) (oracle : Option Nat) : SegResult :=
  let image_id := stem image_path
  if force = false then
    match dictLookup image_id meta with
    | some r =>
      if r.character_crops.all (fun c => disk.contains c) then
        ⟨r.character_crops, meta, false⟩
      else processImage meta image_path image_id oracle
    | none => processImage meta image_path image_id oracle
  else processImage meta image_path image_id oracle

/-- The mutable state of the `segment_batch` loop (lines 369-376): the
`results` dict, the metadata dict, and the `total_characters` counter. -/
structure BatchState where
  results : List (Str × List Str)
  meta : List (Str × CropRecord)
  total_characters : Nat
deriving DecidableEq

/-- The `for image_path in image_paths` loop of `segment_batch`
(lines 372-376); each input carries its oracle outcome. -/
def segment_batch_loop (force : Bool) (disk : List Str) :
    BatchState → List (Str × Option Nat) → BatchState
  | st, [] => st
  | st, (p, oracle) :: rest =>
    let r := segment_image force st.meta disk p oracle
    segment_batch_loop force disk
      ⟨dictInsert (stem p) r.crops st.results, r.meta, st.total_characters + r.crops.length⟩
      rest

/-- `CharacterSegmenter.segment_batch` (lines 354-388), starting from an empty
`results` dict and a zero character counter. -/
def segment_batch (force : Bool) (disk : List Str) (meta : List (Str × CropRecord))
    (inputs : List (Str × Option Nat)) : BatchState :=
  segment_batch_loop force disk ⟨[], meta, 0⟩ inputs

/-- Python division with a zero divisor raises ZeroDivisionError; the raise is
modelled as `none`. -/
def pyDiv (a b : Nat) : Option ℚ :=
  if b = 0 then none else some ((a : ℚ) / (b : ℚ))

/-- The `total_characters/len(image_paths)` expression printed by the summary
of `segment_batch` (line 384); the code applies the division unconditionally. -/
def segment_batch_average (force : Bool) (disk : List Str)
    (meta : List (Str × CropRecord)) (inputs : List (Str × Option Nat)) : Option ℚ :=
  pyDiv (segment_batch force disk meta inputs).total_characters inputs.length

/-- `calculate_iou` (lines 247-251): intersection count over union count, `0`
when the union is empty. -/
def calculate_iou (mask1 mask2 : List Bool) : ℚ :=
  let intersection := (List.zipWith and mask1 mask2).count true
  let union := (List.zipWith or mask1 mask2).count true
  if 0 < union then (intersection : ℚ) / (union : ℚ) else 0

/-- The area-filter stage of `filter_masks` (lines 221-229): keep a candidate
iff `min_area < mask.sum() < max_area` with `min_area = image_area * 0.005`
and `max_area = image_area * 0.85`. -/
def filterByArea (image_area : Nat) (cands : List (List Bool × ℚ)) :
    List (List Bool × ℚ) :=
  cands.filter (fun mp =>
    decide ((image_area : ℚ) * (5 / 1000) < ((mp.1.count true : Nat) : ℚ)
      ∧ ((mp.1.count true : Nat) : ℚ) < (image_area : ℚ) * (85 / 100)))

/-- The non-maximum-suppression loop of `filter_masks` (lines 231-243):
walk the candidates, reject the current one when its IoU with some already
accepted candidate exceeds the threshold, and stop right after the accepted
list reaches 15 entries. -/
def nmsLoop (iou_threshold : ℚ) :
    List (List Bool × ℚ) → List (List Bool × ℚ) → List (List Bool × ℚ)
  | [], filtered => filtered
  | (mask1, score1) :: rest, filtered =>
    if filtered.any (fun mp => decide (iou_threshold < calculate_iou mask1 mp.1)) then
      nmsLoop iou_threshold rest filtered
    else if 15 ≤ filtered.length + 1 then filtered ++ [(mask1, score1)]
    else nmsLoop iou_threshold rest (filtered ++ [(mask1, score1)])

/-- Insert a candidate into a score-descending list, after candidates of
greater-or-equal score (stable, as Python's `list.sort` is). -/
def insertByScore (x : List Bool × ℚ) : List (List Bool × ℚ) → List (List Bool × ℚ)
  | [] => [x]
  | y :: ys => if y.2 ≤ x.2 then x :: y :: ys else y :: insertByScore x ys

/-- Stable descending sort by score, modelling
`masks_with_scores.sort(key=lambda x: x[1], reverse=True)` (line 219). -/
def sortByScoreDesc : List (List Bool × ℚ) → List (List Bool × ℚ)
  | [] => []
  | x :: xs => insertByScore x (sortByScoreDesc xs)

/-- `CharacterSegmenter.filter_masks` (lines 203-245) with the default
`iou_threshold=0.7`: empty-input early return, stable descending sort by
score, area filter, then the NMS loop with the 15-candidate cap. -/
def filter_masks (masks_with_scores : List (List Bool × ℚ)) (image_area : Nat) :
    List (List Bool × ℚ) :=
  if masks_with_scores.isEmpty then []
  else nmsLoop (7 / 10) (filterByArea image_area (sortByScoreDesc masks_with_scores)) []

/-- The crop-region computation of `segment_image` (lines 314-328): pad the
bbox by 10 pixels and clip to the image. Coordinates are `ℤ` because the
intermediate `x_min - padding` may be negative before the `max`. -/
def cropBounds (width height : Nat) (bbox : ℤ × ℤ × ℤ × ℤ) : ℤ × ℤ × ℤ × ℤ :=
  let x := bbox.1
  let y := bbox.2.1
  let box_w := bbox.2.2.1
  let box_h := bbox.2.2.2
  let padding : ℤ := 10
  (max 0 (x - padding), max 0 (y - padding),
   min (width : ℤ) (x + box_w + padding), min (height : ℤ) (y + box_h + padding))

/-- The image-extension whitelist of `segment_directory` (line 402). -/
def image_extensions : List Str :=
  [".jpg".data, ".jpeg".data, ".png".data, ".gif".data, ".bmp".data, ".webp".data]

/-- The path-selection comprehension of `segment_directory` (lines 404-407):
keep the entries of the directory listing whose lowercased suffix is a known
image extension, in the order the filesystem enumerated them. -/
def segment_directory_paths (listing : List Str) : List Str :=
  listing.filter (fun p => image_extensions.contains (toLowerStr (pathSuffix p)))

/-- Witness input for the NMS postcondition: the mask over a 20-pixel grid
that is true exactly at pixel `i`. -/
def gridMask (i : Nat) : List Bool := (List.range 20).map (fun k => decide (k = i))

/-- Witness input: twenty mutually non-overlapping, equally-scored candidates. -/
def twentyCandidates : List (List Bool × ℚ) :=
  (List.range 20).map (fun i => (gridMask i, 1))

/-- Concrete ledger record for the stem-collision and idempotence witnesses:
an earlier run on `dir1/meme.png` that produced one crop. -/
def memeRecord : CropRecord :=
  ⟨"dir1/meme.png".data, 1, [cropPath "meme".data 0], "sam3_auto".data⟩

/-- Concrete metadata dict holding `memeRecord` under the key `meme`. -/
def memeMeta : List (Str × CropRecord) := [("meme".data, memeRecord)]

/-! ### Helper lemmas about masks and IoU -/

theorem zipWith_and_self (m : List Bool) : List.zipWith and m m = m := by
  induction m with
  | nil => rfl
  | cons a l ih => simp [List.zipWith, ih]

theorem zipWith_or_self (m : List Bool) : List.zipWith or m m = m := by
  induction m with
  | nil => rfl
  | cons a l ih => simp [List.zipWith, ih]

theorem iou_comm (m1 m2 : List Bool) : calculate_iou m1 m2 = calculate_iou m2 m1 := by
  simp only [calculate_iou]
  rw [List.zipWith_comm_of_comm and Bool.and_comm, List.zipWith_comm_of_comm or Bool.or_comm]

theorem iou_self (m : List Bool) (h : 0 < m.count true) : calculate_iou m m = 1 := by
  simp only [calculate_iou, zipWith_and_self, zipWith_or_self, if_pos h]
  exact div_self (by exact_mod_cast h.ne')

theorem iou_inter_zero (m1 m2 : List Bool)
    (h : (List.zipWith and m1 m2).count true = 0) : calculate_iou m1 m2 = 0 := by
  simp only [calculate_iou, h]
  split <;> simp

theorem iou_union_zero (m1 m2 : List Bool)
    (h : (List.zipWith or m1 m2).count true = 0) : calculate_iou m1 m2 = 0 := by
  simp only [calculate_iou, h]
  rfl

/-! ### C4: IoU algebra -/

/-- C4: `calculate_iou` is `|A∩B| / |A∪B|` with value `0` when the union is
empty (no division by zero); it is `1` on any non-empty mask against itself,
`0` on masks sharing no pixels, and symmetric in its two arguments. -/
theorem iou_algebra :
    (∀ m1 m2 : List Bool,
        (List.zipWith or m1 m2).count true = 0 → calculate_iou m1 m2 = 0)
  ∧ (∀ m : List Bool, 0 < m.count true → calculate_iou m m = 1)
  ∧ (∀ m1 m2 : List Bool,
        (List.zipWith and m1 m2).count true = 0 → calculate_iou m1 m2 = 0)
  ∧ (∀ m1 m2 : List Bool, calculate_iou m1 m2 = calculate_iou m2 m1) :=
  ⟨iou_union_zero, iou_self, iou_inter_zero, iou_comm⟩

/-- Witness for C4 on concrete masks: a mask against itself, two disjoint
masks, and two empty masks. -/
theorem iou_algebra_witness :
    calculate_iou [true, true] [true, true] = 1
  ∧ calculate_iou [true, false] [false, true] = 0
  ∧ calculate_iou [] [] = 0 :=
  ⟨iou_algebra.2.1 [true, true] (by decide),
   iou_algebra.2.2.1 [true, false] [false, true] (by decide),
   iou_algebra.1 [] [] (by decide)⟩

/-! ### C2: area filter with exclusive boundaries -/

/-- C2: a candidate survives the area filter of `filter_masks` iff its mask's
true-pixel count is strictly between `0.005 * image_area` and
`0.85 * image_area`; candidates whose area equals either boundary exactly are
excluded (shown at the lower boundary for `image_area = 200`, where
`0.005 * 200 = 1`, and at the upper boundary for `image_area = 20`, where
`0.85 * 20 = 17`). -/
theorem area_filter_strict_bounds :
    (∀ (image_area : Nat) (cands : List (List Bool × ℚ)) (p : List Bool × ℚ),
        p ∈ filterByArea image_area cands ↔
          p ∈ cands ∧ (image_area : ℚ) * (5 / 1000) < ((p.1.count true : Nat) : ℚ)
            ∧ ((p.1.count true : Nat) : ℚ) < (image_area : ℚ) * (85 / 100))
  ∧ (List.replicate 1 true, (1 : ℚ)) ∉
      filterByArea 200 [(List.replicate 1 true, (1 : ℚ))]
  ∧ (List.replicate 17 true, (1 : ℚ)) ∉
      filterByArea 20 [(List.replicate 17 true, (1 : ℚ))] := by
  refine ⟨?_, ?_, ?_⟩
  · intro image_area cands p
    simp [filterByArea, List.mem_filter]
  · intro hmem
    rw [filterByArea, List.mem_filter, decide_eq_true_eq] at hmem
    have hc : ((List.replicate 1 true : List Bool).count true) = 1 := by simp
    rw [hc] at hmem
    norm_num at hmem
  · intro hmem
    rw [filterByArea, List.mem_filter, decide_eq_true_eq] at hmem
    have hc : ((List.replicate 17 true : List Bool).count true) = 17 := by simp
    rw [hc] at hmem
    norm_num at hmem

/-! ### C5: crop clipping -/

/-- C5: the crop region is `(max 0 (x-10), max 0 (y-10), min width (x+w+10),
min height (y+h+10))`, hence starts at non-negative coordinates and ends
within the image dimensions; bbox `(0, 0, 10, 10)` with padding 10 on a 15×15
image yields `(0, 0, 15, 15)`. -/
theorem crop_clipping_bounds (w h : Nat) (x y bw bh : ℤ) :
    cropBounds w h (x, y, bw, bh)
      = (max 0 (x - 10), max 0 (y - 10),
         min (w : ℤ) (x + bw + 10), min (h : ℤ) (y + bh + 10))
  ∧ 0 ≤ (cropBounds w h (x, y, bw, bh)).1
  ∧ 0 ≤ (cropBounds w h (x, y, bw, bh)).2.1
  ∧ (cropBounds w h (x, y, bw, bh)).2.2.1 ≤ (w : ℤ)
  ∧ (cropBounds w h (x, y, bw, bh)).2.2.2 ≤ (h : ℤ)
  ∧ cropBounds 15 15 (0, 0, 10, 10) = (0, 0, 15, 15) := by
  refine ⟨rfl, ?_, ?_, ?_, ?_, by decide⟩ <;> simp [cropBounds]

/-! ### C8: directory scan order -/

/-- Counterexample to C8: the selection of `segment_directory` is not sorted
and depends on the filesystem enumeration order — the same two files listed in
the two possible orders produce two different processing orders. -/
theorem directory_order_depends_on_listing :
    segment_directory_paths ["b.png".data, "a.png".data]
      ≠ segment_directory_paths ["a.png".data, "b.png".data] := by decide

/-- C8 amended: `segment_directory` keeps exactly the listed paths whose
lowercased suffix is one of the six image extensions, in the filesystem's
enumeration order (the selection is a sublist of the listing; no sorting is
applied). -/
theorem directory_filter_preserves_listing_order (listing : List Str) :
    (segment_directory_paths listing).Sublist listing
  ∧ ∀ p, p ∈ segment_directory_paths listing ↔
      p ∈ listing ∧ image_extensions.contains (toLowerStr (pathSuffix p)) = true := by
  refine ⟨List.filter_sublist listing, ?_⟩
  intro p
  simp [segment_directory_paths, List.mem_filter]

/-! ### Helper lemmas about the NMS loop of filter_masks -/

theorem nmsLoop_length_le (thr : ℚ) (l acc : List (List Bool × ℚ))
    (h : acc.length < 15) : (nmsLoop thr l acc).length ≤ 15 := by
  induction l generalizing acc with
  | nil => simpa [nmsLoop] using h.le
  | cons a rest ih =>
    obtain ⟨m, s⟩ := a
    simp only [nmsLoop]
    split
    · exact ih acc h
    · split
      · simp only [List.length_append, List.length_singleton]
        omega
      · apply ih
        simp only [List.length_append, List.length_singleton]
        omega

theorem nmsLoop_sublist_mem (thr : ℚ) (l acc : List (List Bool × ℚ)) :
    ∀ p ∈ nmsLoop thr l acc, p ∈ acc ∨ p ∈ l := by
  induction l generalizing acc with
  | nil => intro p hp; simp only [nmsLoop] at hp; exact Or.inl hp
  | cons a rest ih =>
    obtain ⟨m, s⟩ := a
    intro p hp
    simp only [nmsLoop] at hp
    split at hp
    · rcases ih acc p hp with h | h
      · exact Or.inl h
      · exact Or.inr (List.mem_cons_of_mem _ h)
    · split at hp
      · rcases List.mem_append.mp hp with h | h
        · exact Or.inl h
        · exact Or.inr (by simp at h; simp [h])
      · rcases ih _ p hp with h | h
        · rcases List.mem_append.mp h with h1 | h1
          · exact Or.inl h1
          · exact Or.inr (by simp at h1; simp [h1])
        · exact Or.inr (List.mem_cons_of_mem _ h)

theorem nmsLoop_extend (thr : ℚ) (l acc : List (List Bool × ℚ)) :
    ∃ t, nmsLoop thr l acc = acc ++ t := by
  induction l generalizing acc with
  | nil => exact ⟨[], by simp [nmsLoop]⟩
  | cons a rest ih =>
    obtain ⟨m, s⟩ := a
    simp only [nmsLoop]
    split
    · exact ih acc
    · split
      · exact ⟨[(m, s)], rfl⟩
      · obtain ⟨t, ht⟩ := ih (acc ++ [(m, s)])
        exact ⟨(m, s) :: t, by rw [ht, List.append_assoc]; rfl⟩

theorem nmsLoop_count (thr : ℚ) (l acc : List (List Bool × ℚ))
    (hacc : acc.length < 15)
    (hcross : ∀ a ∈ l, ∀ b ∈ acc, calculate_iou a.1 b.1 ≤ thr)
    (hpw : l.Pairwise (fun x y => calculate_iou y.1 x.1 ≤ thr)) :
    (nmsLoop thr l acc).length = min (acc.length + l.length) 15 := by
  induction l generalizing acc with
  | nil =>
    have hr : nmsLoop thr [] acc = acc := rfl
    rw [hr, List.length_nil, Nat.add_zero]
    omega
  | cons a rest ih =>
    obtain ⟨m, s⟩ := a
    have hany : (acc.any fun mp => decide (thr < calculate_iou m mp.1)) = false := by
      rw [List.any_eq_false]
      intro mp hmp
      simp only [decide_eq_true_eq, not_lt]
      exact hcross (m, s) (List.mem_cons_self _ _) mp hmp
    simp only [nmsLoop, hany, Bool.false_eq_true, if_false]
    by_cases h15 : 15 ≤ acc.length + 1
    · rw [if_pos h15]
      have h1 : (acc ++ [(m, s)]).length = acc.length + 1 := by simp
      have h2 : ((m, s) :: rest).length = rest.length + 1 := rfl
      rw [h1, h2]
      omega
    · rw [if_neg h15]
      have hacc2 : (acc ++ [(m, s)]).length < 15 := by
        simp only [List.length_append, List.length_singleton]
        omega
      have hcross2 : ∀ a ∈ rest, ∀ b ∈ acc ++ [(m, s)], calculate_iou a.1 b.1 ≤ thr := by
        intro a ha b hb
        rcases List.mem_append.mp hb with hb1 | hb1
        · exact hcross a (List.mem_cons_of_mem _ ha) b hb1
        · have : b = (m, s) := by simpa using hb1
          subst this
          exact (List.pairwise_cons.mp hpw).1 a ha
      have hpw2 : rest.Pairwise (fun x y => calculate_iou y.1 x.1 ≤ thr) :=
        (List.pairwise_cons.mp hpw).2
      rw [ih _ hacc2 hcross2 hpw2]
      have h1 : (acc ++ [(m, s)]).length = acc.length + 1 := by simp
      have h2 : ((m, s) :: rest).length = rest.length + 1 := rfl
      rw [h1, h2]
      omega

theorem nmsLoop_pairwise (thr : ℚ) (l acc : List (List Bool × ℚ))
    (hacc : acc.Pairwise (fun a b => calculate_iou a.1 b.1 ≤ thr)) :
    (nmsLoop thr l acc).Pairwise (fun a b => calculate_iou a.1 b.1 ≤ thr) := by
  induction l generalizing acc with
  | nil => simpa [nmsLoop] using hacc
  | cons a rest ih =>
    obtain ⟨m, s⟩ := a
    simp only [nmsLoop]
    by_cases hany : (acc.any fun mp => decide (thr < calculate_iou m mp.1)) = true
    · rw [if_pos hany]
      exact ih acc hacc
    · rw [if_neg hany]
      rw [List.any_eq_true] at hany
      push_neg at hany
      have hpacc2 : (acc ++ [(m, s)]).Pairwise
          (fun a b => calculate_iou a.1 b.1 ≤ thr) := by
        rw [List.pairwise_append]
        refine ⟨hacc, List.pairwise_singleton _ _, ?_⟩
        intro b hb c hc
        have : c = (m, s) := by simpa using hc
        subst this
        have hle := hany b hb
        simp only [ne_eq, decide_eq_true_eq] at hle
        rw [iou_comm]
        exact not_lt.mp hle
      split
      · exact hpacc2
      · exact ih _ hpacc2

theorem nmsLoop_complete (thr : ℚ) (l acc : List (List Bool × ℚ))
    (hlen : (nmsLoop thr l acc).length < 15) :
    ∀ a ∈ l, a ∈ nmsLoop thr l acc
      ∨ ∃ b ∈ nmsLoop thr l acc, thr < calculate_iou a.1 b.1 := by
  induction l generalizing acc with
  | nil => intro a ha; cases ha
  | cons x rest ih =>
    obtain ⟨m, s⟩ := x
    intro a ha
    by_cases hany : (acc.any fun mp => decide (thr < calculate_iou m mp.1)) = true
    · have hred : nmsLoop thr ((m, s) :: rest) acc = nmsLoop thr rest acc := by
        simp only [nmsLoop]
        rw [if_pos hany]
      rw [hred] at hlen ⊢
      rcases List.mem_cons.mp ha with rfl | ha2
      · rw [List.any_eq_true] at hany
        obtain ⟨b, hb, hdec⟩ := hany
        rw [decide_eq_true_eq] at hdec
        obtain ⟨t, ht⟩ := nmsLoop_extend thr rest acc
        exact Or.inr ⟨b, by rw [ht]; exact List.mem_append_left _ hb, hdec⟩
      · exact ih acc hlen a ha2
    · by_cases h15 : 15 ≤ acc.length + 1
      · have hred : nmsLoop thr ((m, s) :: rest) acc = acc ++ [(m, s)] := by
          simp only [nmsLoop]
          rw [if_neg hany, if_pos h15]
        rw [hred] at hlen
        simp only [List.length_append, List.length_singleton] at hlen
        omega
      · have hred : nmsLoop thr ((m, s) :: rest) acc
            = nmsLoop thr rest (acc ++ [(m, s)]) := by
          simp only [nmsLoop]
          rw [if_neg hany, if_neg h15]
        rw [hred] at hlen ⊢
        rcases List.mem_cons.mp ha with rfl | ha2
        · obtain ⟨t, ht⟩ := nmsLoop_extend thr rest (acc ++ [(m, s)])
          refine Or.inl ?_
          rw [ht]
          exact List.mem_append_left _ (List.mem_append_right _ (List.mem_singleton_self _))
        · exact ih _ hlen a ha2

/-! ### C3: greedy NMS postcondition -/

theorem zipWith_map_self {α β : Type} (f : β → β → β) (g h : α → β) (l : List α) :
    List.zipWith f (l.map g) (l.map h) = l.map (fun x => f (g x) (h x)) := by
  induction l with
  | nil => rfl
  | cons a t ih => simp [ih]

theorem gridMask_inter (i j : Nat) (hij : i ≠ j) :
    (List.zipWith and (gridMask i) (gridMask j)).count true = 0 := by
  rw [gridMask, gridMask, zipWith_map_self, List.count_eq_zero]
  intro hmem
  rw [List.mem_map] at hmem
  obtain ⟨k, -, hk⟩ := hmem
  simp only [Bool.and_eq_true, decide_eq_true_eq] at hk
  exact hij (by rw [← hk.1, hk.2])

theorem twentyCandidates_pairwise :
    twentyCandidates.Pairwise (fun a b => calculate_iou a.1 b.1 ≤ 7 / 10) := by
  rw [twentyCandidates, List.pairwise_map]
  have hnd : (List.range 20).Pairwise (· ≠ ·) := List.nodup_range 20
  exact hnd.imp (fun hij => by
    rw [iou_inter_zero _ _ (gridMask_inter _ _ hij)]
    norm_num)

/-- C3: the NMS stage of `filter_masks` accepts at most 15 candidates (so
`filter_masks` never returns more than 15); on a candidate list whose pairwise
IoUs never exceed 0.7 it accepts exactly `min` of the list length and 15 (so
20 mutually non-overlapping valid candidates yield exactly 15, the rest being
dropped by the cap alone); every accepted candidate comes from the input; the
accepted candidates are mutually non-duplicate (pairwise IoU at most 0.7); and
whenever the cap was not reached, every dropped candidate overlaps some
accepted candidate with IoU above 0.7. -/
theorem greedy_nms_postcondition :
    (∀ (cands : List (List Bool × ℚ)) (image_area : Nat),
        (filter_masks cands image_area).length ≤ 15)
  ∧ (∀ l : List (List Bool × ℚ),
        l.Pairwise (fun a b => calculate_iou a.1 b.1 ≤ 7 / 10) →
        (nmsLoop (7 / 10) l []).length = min l.length 15)
  ∧ (∀ l : List (List Bool × ℚ), ∀ p ∈ nmsLoop (7 / 10) l [], p ∈ l)
  ∧ (∀ l : List (List Bool × ℚ),
        (nmsLoop (7 / 10) l []).Pairwise (fun a b => calculate_iou a.1 b.1 ≤ 7 / 10))
  ∧ (∀ l : List (List Bool × ℚ), (nmsLoop (7 / 10) l []).length < 15 →
        ∀ a ∈ l, a ∈ nmsLoop (7 / 10) l []
          ∨ ∃ b ∈ nmsLoop (7 / 10) l [], 7 / 10 < calculate_iou a.1 b.1) := by
  refine ⟨?_, ?_, ?_, ?_, ?_⟩
  · intro cands image_area
    rw [filter_masks]
    split
    · simp
    · exact nmsLoop_length_le _ _ _ (by simp)
  · intro l hpw
    have h := nmsLoop_count (7 / 10) l [] (by simp)
      (by intro a ha b hb; cases hb)
      (hpw.imp (fun hab => by rwa [iou_comm]))
    simpa using h
  · intro l p hp
    rcases nmsLoop_sublist_mem _ _ _ p hp with h | h
    · cases h
    · exact h
  · intro l
    exact nmsLoop_pairwise _ _ _ List.Pairwise.nil
  · intro l h
    exact nmsLoop_complete _ _ _ h

/-- Witness for C3: twenty mutually non-overlapping, equally-scored candidates
yield exactly 15 accepted candidates. -/
theorem greedy_nms_postcondition_witness :
    (nmsLoop (7 / 10) twentyCandidates []).length = 15 := by
  have h := greedy_nms_postcondition.2.1 twentyCandidates twentyCandidates_pairwise
  rw [h, twentyCandidates]
  simp

/-! ### Helper lemmas about the metadata/results dicts -/

theorem dictLookup_dictInsert_self {β : Type} (m : List (Str × β)) (k : Str) (v : β) :
    dictLookup k (dictInsert k v m) = some v := by
  induction m with
  | nil => simp [dictInsert, dictLookup]
  | cons e es ih =>
    by_cases h : (e.1 == k) = true
    · simp [dictInsert, h, dictLookup]
    · simp only [dictInsert, h, if_false, Bool.false_eq_true]
      rw [dictLookup, if_neg (by simp [h]), ih]

theorem dictLookup_dictInsert_ne {β : Type} (m : List (Str × β)) (k q : Str) (v : β)
    (hqk : q ≠ k) : dictLookup q (dictInsert k v m) = dictLookup q m := by
  have hf : (k == q) = false := beq_eq_false_iff_ne.mpr (Ne.symm hqk)
  induction m with
  | nil => simp [dictInsert, dictLookup, hf]
  | cons e es ih =>
    by_cases h : (e.1 == k) = true
    · have he : e.1 = k := by simpa using h
      simp [dictInsert, h, dictLookup, hf, he]
    · simp only [dictInsert, h, if_false, Bool.false_eq_true]
      rw [dictLookup, dictLookup]
      by_cases hq : (e.1 == q) = true
      · simp [hq]
      · simp only [hq, if_false, Bool.false_eq_true]
        exact ih

theorem dictLookup_isSome_dictInsert {β : Type} (m : List (Str × β)) (k q : Str) (v : β)
    (h : (dictLookup q m).isSome = true) :
    (dictLookup q (dictInsert k v m)).isSome = true := by
  by_cases hqk : q = k
  · subst hqk
    rw [dictLookup_dictInsert_self]
    rfl
  · rw [dictLookup_dictInsert_ne m k q v hqk]
    exact h

theorem mem_dictInsert {β : Type} (m : List (Str × β)) (k : Str) (v : β) (e : Str × β)
    (he : e ∈ dictInsert k v m) : e = (k, v) ∨ e ∈ m := by
  induction m with
  | nil =>
    rw [dictInsert] at he
    exact Or.inl (by simpa using he)
  | cons f fs ih =>
    rw [dictInsert] at he
    split at he
    · rcases List.mem_cons.mp he with h2 | h2
      · exact Or.inl h2
      · exact Or.inr (List.mem_cons_of_mem _ h2)
    · rcases List.mem_cons.mp he with h2 | h2
      · exact Or.inr (h2 ▸ List.mem_cons_self _ _)
      · rcases ih h2 with h3 | h3
        · exact Or.inl h3
        · exact Or.inr (List.mem_cons_of_mem _ h3)

/-! ### Helper lemmas about segment_image and the batch loop -/

theorem segment_image_failure (force : Bool) (meta : List (Str × CropRecord))
    (disk : List Str) (p : Str)
    (h : (segment_image force meta disk p none).processed = true) :
    (segment_image force meta disk p none).crops = []
      ∧ (segment_image force meta disk p none).meta = meta := by
  cases force with
  | true => simp [segment_image, processImage]
  | false =>
    cases hm : dictLookup (stem p) meta with
    | none => simp [segment_image, hm, processImage]
    | some r =>
      have hred : segment_image false meta disk p none
          = if ∀ x ∈ r.character_crops, x ∈ disk
              then ⟨r.character_crops, meta, false⟩
              else processImage meta p (stem p) none := by
        simp [segment_image, hm]
      by_cases hall : ∀ x ∈ r.character_crops, x ∈ disk
      · rw [hred, if_pos hall] at h
        simp at h
      · rw [hred, if_neg hall]
        simp [processImage]

theorem segment_image_meta_cases (force : Bool) (meta : List (Str × CropRecord))
    (disk : List Str) (image_path : Str) (oracle : Option Nat) :
    (segment_image force meta disk image_path oracle).meta = meta
  ∨ ∃ (k : Str) (v : CropRecord), v.character_count = v.character_crops.length
      ∧ (segment_image force meta disk image_path oracle).meta = dictInsert k v meta := by
  have hp : (processImage meta image_path (stem image_path) oracle).meta = meta
      ∨ ∃ (k : Str) (v : CropRecord), v.character_count = v.character_crops.length
          ∧ (processImage meta image_path (stem image_path) oracle).meta
              = dictInsert k v meta := by
    cases oracle with
    | none => exact Or.inl rfl
    | some n =>
      exact Or.inr ⟨stem image_path,
        ⟨image_path, ((List.range n).map (fun idx => cropPath (stem image_path) idx)).length,
         (List.range n).map (fun idx => cropPath (stem image_path) idx),
         "sam3_auto".data⟩, rfl, rfl⟩
  cases force with
  | true => simpa [segment_image] using hp
  | false =>
    cases hm : dictLookup (stem image_path) meta with
    | none => simpa [segment_image, hm] using hp
    | some r =>
      have hred : segment_image false meta disk image_path oracle
          = if ∀ x ∈ r.character_crops, x ∈ disk
              then ⟨r.character_crops, meta, false⟩
              else processImage meta image_path (stem image_path) oracle := by
        simp [segment_image, hm]
      by_cases hall : ∀ x ∈ r.character_crops, x ∈ disk
      · rw [hred, if_pos hall]
        exact Or.inl rfl
      · rw [hred, if_neg hall]
        exact hp

theorem segment_batch_loop_keeps_key (force : Bool) (disk : List Str)
    (inputs : List (Str × Option Nat)) (st : BatchState) (q : Str)
    (h : (dictLookup q st.results).isSome = true) :
    (dictLookup q (segment_batch_loop force disk st inputs).results).isSome = true := by
  induction inputs generalizing st with
  | nil => simpa [segment_batch_loop] using h
  | cons a rest ih =>
    obtain ⟨p, o⟩ := a
    rw [segment_batch_loop]
    exact ih _ (dictLookup_isSome_dictInsert _ _ _ _ h)

theorem segment_batch_loop_covers (force : Bool) (disk : List Str)
    (inputs : List (Str × Option Nat)) (st : BatchState) (p : Str) (o : Option Nat)
    (hmem : (p, o) ∈ inputs) :
    (dictLookup (stem p) (segment_batch_loop force disk st inputs).results).isSome
      = true := by
  induction inputs generalizing st with
  | nil => cases hmem
  | cons a rest ih =>
    obtain ⟨q, oq⟩ := a
    rw [segment_batch_loop]
    rcases List.mem_cons.mp hmem with heq | h2
    · have hq : q = p := (Prod.mk.injEq _ _ _ _).mp heq.symm |>.1
      subst hq
      apply segment_batch_loop_keeps_key
      rw [dictLookup_dictInsert_self]
      rfl
    · exact ih _ h2

/-! ### C7: empty-batch summary -/

/-- Counterexample to C7: there is no division-by-zero guard in the summary of
`segment_batch` — on an empty list of image paths the average expression
`total_characters/len(image_paths)` divides by zero, i.e. raises
ZeroDivisionError, modelled here by `none`. -/
theorem batch_average_empty_none :
    segment_batch_average false [] [] [] = none := rfl

/-- C7 amended: `segment_batch` computes `total_characters/len(image_paths)`
unguarded, so the summary average is defined (no ZeroDivisionError) exactly
when the list of image paths is nonempty; the claimed guard for the empty
input does not exist, and on an empty list the division raises. -/
theorem batch_average_nonempty_defined (force : Bool) (disk : List Str)
    (meta : List (Str × CropRecord)) (inputs : List (Str × Option Nat))
    (h : inputs ≠ []) :
    (segment_batch_average force disk meta inputs).isSome = true := by
  rw [segment_batch_average, pyDiv,
    if_neg (fun h0 => h (List.length_eq_zero.mp h0))]
  rfl

/-- Witness for the amended C7 on a one-element batch. -/
theorem batch_average_nonempty_defined_witness :
    (segment_batch_average false [] [] [("a.png".data, none)]).isSome = true :=
  batch_average_nonempty_defined false [] [] [("a.png".data, none)] (by simp)

/-! ### C1: ledger idempotence -/

/-- C1: with `force=False`, when a ledger record exists for the image id and
every listed crop file exists on disk, `segment_image` returns the cached
crop-path list unchanged with the metadata untouched and without processing
(no oracle invocation); when some listed file is missing, the image is fully
reprocessed through the processing body; `force=True` unconditionally skips
the cached-record check and reprocesses (the processing body always reports
`processed = true`). -/
theorem ledger_idempotence (meta : List (Str × CropRecord)) (disk : List Str)
    (image_path : Str) (oracle : Option Nat) (r : CropRecord) :
    (dictLookup (stem image_path) meta = some r →
        r.character_crops.all (fun c => disk.contains c) = true →
        segment_image false meta disk image_path oracle
          = ⟨r.character_crops, meta, false⟩)
  ∧ (dictLookup (stem image_path) meta = some r →
        r.character_crops.all (fun c => disk.contains c) = false →
        segment_image false meta disk image_path oracle
          = processImage meta image_path (stem image_path) oracle)
  ∧ segment_image true meta disk image_path oracle
      = processImage meta image_path (stem image_path) oracle
  ∧ (processImage meta image_path (stem image_path) oracle).processed = true := by
  refine ⟨?_, ?_, ?_, ?_⟩
  · intro hm hall
    have hred : segment_image false meta disk image_path oracle
        = if ∀ x ∈ r.character_crops, x ∈ disk
            then ⟨r.character_crops, meta, false⟩
            else processImage meta image_path (stem image_path) oracle := by
      simp [segment_image, hm]
    have hallP : ∀ x ∈ r.character_crops, x ∈ disk := by simpa using hall
    rw [hred, if_pos hallP]
  · intro hm hall
    have hred : segment_image false meta disk image_path oracle
        = if ∀ x ∈ r.character_crops, x ∈ disk
            then ⟨r.character_crops, meta, false⟩
            else processImage meta image_path (stem image_path) oracle := by
      simp [segment_image, hm]
    have hallP : ¬ ∀ x ∈ r.character_crops, x ∈ disk := by
      intro hc
      have ht : r.character_crops.all (fun c => disk.contains c) = true := by
        simpa using hc
      rw [ht] at hall
      cases hall
    rw [hred, if_neg hallP]
  · simp [segment_image]
  · cases oracle <;> rfl

/-- Witness for C1: a cached record whose single crop file exists is returned
unchanged without processing; with the file missing, or with `force=True`, the
image goes through the processing body. -/
theorem ledger_idempotence_witness :
    segment_image false memeMeta [cropPath "meme".data 0] "dir2/meme.png".data (some 3)
      = ⟨memeRecord.character_crops, memeMeta, false⟩
  ∧ segment_image false memeMeta [] "dir2/meme.png".data (some 1)
      = processImage memeMeta "dir2/meme.png".data (stem "dir2/meme.png".data) (some 1)
  ∧ segment_image true memeMeta [cropPath "meme".data 0] "dir2/meme.png".data (some 1)
      = processImage memeMeta "dir2/meme.png".data (stem "dir2/meme.png".data) (some 1) :=
  ⟨(ledger_idempotence memeMeta [cropPath "meme".data 0] "dir2/meme.png".data
      (some 3) memeRecord).1 (by decide) (by decide),
   (ledger_idempotence memeMeta [] "dir2/meme.png".data
      (some 1) memeRecord).2.1 (by decide) (by decide),
   (ledger_idempotence memeMeta [cropPath "meme".data 0] "dir2/meme.png".data
      (some 1) memeRecord).2.2.1⟩

/-! ### C6: per-image error containment -/

/-- C6: a failure while processing a single image is contained to that image:
`segment_image` then returns an empty crop list and leaves the metadata
unchanged; the batch loop records the empty list for that image's identifier
and continues with the remaining images unchanged; and every image of a batch
ends up with an entry in the returned results mapping, so no single failure
aborts `segment_batch`. -/
theorem per_image_error_containment :
    (∀ (force : Bool) (meta : List (Str × CropRecord)) (disk : List Str) (p : Str),
        (segment_image force meta disk p none).processed = true →
        (segment_image force meta disk p none).crops = []
          ∧ (segment_image force meta disk p none).meta = meta)
  ∧ (∀ (force : Bool) (disk : List Str) (st : BatchState) (p : Str)
        (rest : List (Str × Option Nat)),
        (segment_image force st.meta disk p none).processed = true →
        segment_batch_loop force disk st ((p, none) :: rest)
          = segment_batch_loop force disk
              ⟨dictInsert (stem p) [] st.results, st.meta, st.total_characters⟩ rest)
  ∧ (∀ (force : Bool) (disk : List Str) (meta : List (Str × CropRecord))
        (inputs : List (Str × Option Nat)) (p : Str) (o : Option Nat),
        (p, o) ∈ inputs →
        (dictLookup (stem p) (segment_batch force disk meta inputs).results).isSome
          = true) := by
  refine ⟨segment_image_failure, ?_, ?_⟩
  · intro force disk st p rest h
    obtain ⟨h1, h2⟩ := segment_image_failure force st.meta disk p h
    rw [segment_batch_loop, h1, h2]
    simp only [List.length_nil, Nat.add_zero]
  · intro force disk meta inputs p o hmem
    rw [segment_batch]
    exact segment_batch_loop_covers force disk inputs ⟨[], meta, 0⟩ p o hmem

/-- Witness for C6 on a one-image batch whose processing fails. -/
theorem per_image_error_containment_witness :
    ((segment_image true [] [] "a.png".data none).crops = []
      ∧ (segment_image true [] [] "a.png".data none).meta = [])
  ∧ segment_batch_loop true [] ⟨[], [], 0⟩ [("a.png".data, none)]
      = segment_batch_loop true [] ⟨dictInsert (stem "a.png".data) [] [], [], 0⟩ []
  ∧ (dictLookup (stem "a.png".data)
      (segment_batch true [] [] [("a.png".data, none)]).results).isSome = true :=
  ⟨per_image_error_containment.1 true [] [] "a.png".data (by decide),
   per_image_error_containment.2.1 true [] ⟨[], [], 0⟩ "a.png".data [] (by decide),
   per_image_error_containment.2.2 true [] [] [("a.png".data, none)]
     "a.png".data none (by decide)⟩

/-! ### C9: CropRecord invariant -/

/-- C9: every ledger record written by `segment_image` satisfies
`character_count == len(character_crops)`, and if every entry of the metadata
dict satisfies the invariant before a call, every entry still satisfies it
after the call. -/
theorem crop_record_invariant (force : Bool) (meta : List (Str × CropRecord))
    (disk : List Str) (image_path : Str) (oracle : Option Nat)
    (h : ∀ e ∈ meta, e.2.character_count = e.2.character_crops.length) :
    ∀ e ∈ (segment_image force meta disk image_path oracle).meta,
      e.2.character_count = e.2.character_crops.length := by
  intro e he
  rcases segment_image_meta_cases force meta disk image_path oracle with
    hcase | ⟨k, v, hv, hcase⟩
  · rw [hcase] at he
    exact h e he
  · rw [hcase] at he
    rcases mem_dictInsert _ _ _ _ he with h2 | h2
    · rw [h2]
      exact hv
    · exact h e h2

/-- Witness for C9: after reprocessing `dir2/meme.png` over a well-formed
metadata dict, every entry still has `character_count` equal to the number of
crops. -/
theorem crop_record_invariant_witness :
    ((segment_image true memeMeta [] "dir2/meme.png".data (some 2)).meta.all
      (fun e => e.2.character_count == e.2.character_crops.length)) = true := by
  have h := crop_record_invariant true memeMeta [] "dir2/meme.png".data (some 2)
    (by decide)
  rw [List.all_eq_true]
  intro e he
  exact beq_iff_eq.mpr (h e he)

/-! ### C10: identity is the filename stem only -/

/-- C10: `segment_image` keys the ledger, results and crop filenames by the
path's stem alone, so two distinct source paths with equal stems collide:
with `force=False` and the first path's record cached (files present), the
second path is skipped and returns the first's crops; reprocessing the second
path produces exactly the same crop filenames as the first (overwriting its
files) and replaces the first's ledger record under the shared key. -/
theorem stem_identity_collision :
    stem "dir1/meme.png".data = stem "dir2/meme.png".data
  ∧ (segment_image false memeMeta [cropPath "meme".data 0]
      "dir2/meme.png".data (some 3)).processed = false
  ∧ (segment_image false memeMeta [cropPath "meme".data 0]
      "dir2/meme.png".data (some 3)).crops = memeRecord.character_crops
  ∧ (segment_image true [] [] "dir1/meme.png".data (some 2)).crops
      = (segment_image true [] [] "dir2/meme.png".data (some 2)).crops
  ∧ dictLookup "meme".data
      (segment_image true memeMeta [] "dir2/meme.png".data (some 2)).meta
      = some ⟨"dir2/meme.png".data, 2,
              [cropPath "meme".data 0, cropPath "meme".data 1], "sam3_auto".data⟩ :=
  ⟨by decide, by decide, by decide, by decide, by decide⟩
